import Mathlib

/-!
Shallow embedding of uqbar's API documentation tree model, translated from
`uqbar/apis/ModuleDocumenter.py` and `uqbar/apis/SummarizingRootDocumenter.py`.

Python strings are modelled as lists of characters (`Str`); Python compares
strings lexicographically by code point, which is `strLeb` below.  Module
members discovered via `dir()`/`getattr` are modelled as association lists of
(attribute name, member value) pairs; `dir()` yields each attribute name once.
-/

namespace Uqbar

/-- Python strings, modelled as lists of characters. -/
abbrev Str := List Char

/-- Embed a Lean string literal into the `Str` model. -/
def chars (s : String) : Str := s.toList

/-- Python `<=` on strings: lexicographic comparison by code point. -/
def strLeb : Str → Str → Bool
  | [], _ => true
  | _ :: _, [] => false
  | a :: xs, b :: ys => if a < b then true else if b < a then false else strLeb xs ys

/-- Python `str.split(sep)` for a single-character separator: splits on every
occurrence of the separator; `"".split(sep)` is `[""]`. -/
def splitOnChar (c : Char) : Str → List Str
  | [] => [[]]
  | a :: rest =>
    if a = c then [] :: splitOnChar c rest
    else
      match splitOnChar c rest with
      | [] => [[a]]
      | g :: gs => (a :: g) :: gs

/-- Python `str.replace(old, new)` for a single-character `old`: every
occurrence of the character is replaced (occurrences of a one-character
pattern are exactly the equal characters, so this is a flat map). -/
def replaceChar (s : Str) (old : Char) (new : Str) : Str :=
  s.flatMap (fun a => if a = old then new else [a])

/-- Final dot-separated segment of a path (`path.split('.')[-1]`). -/
def finalSegment (p : Str) : Str :=
  ((splitOnChar '.' p).reverse).headD []

/-- Second-to-last dot-separated segment of a path (`path.split('.')[-2]`,
meaningful when the path has at least two segments). -/
def penultimateSegment (p : Str) : Str :=
  ((splitOnChar '.' p).reverse.tail).headD []

/-- Number of dot-separated segments of a path (`len(path.split('.'))`). -/
def segmentCount (p : Str) : Nat :=
  (splitOnChar '.' p).length

example : chars (r"pkg.sub_mod") = ['p', 'k', 'g', '.', 's', 'u', 'b', '_', 'm', 'o', 'd'] := by decide

example : splitOnChar '.' (chars (r"a.b.c")) = [chars (r"a"), chars (r"b"), chars (r"c")] := by decide

example : strLeb (chars (r"Classes")) (chars (r"Functions")) = true := by decide

/-- A member value obtained via `getattr(module, name)`: what the classifiers
inspect.  `module` models the value's `__module__` attribute (the declaring
module's dotted path) and `objName` its `__name__` (the declaring name). -/
structure MemberValue where
  module : Str
  objName : Str
deriving DecidableEq

/-- A `MemberDocumenter` subclass used as a classifier: its
`validate_client(client, module_path)` class method and its
`__documentation_section__` label, which the constructed documenter reports
as `documentation_section`. -/
structure MemberDocumenterClass where
  validate_client : MemberValue → Str → Bool
  documentation_section : Str

/-- A constructed leaf documenter (`MemberDocumenter` instance): it carries
the fully-qualified `package_path` it was constructed with and the
`documentation_section` of the class that constructed it. -/
structure MemberDocumenter where
  package_path : Str
  documentation_section : Str
deriving DecidableEq

/-- The resolved module object (`importlib.import_module` result): its
`dir()` listing paired with the `getattr` values, plus whether it has a
`__path__` attribute (i.e. is a package). -/
structure Client where
  attrs : List (Str × MemberValue)
  hasPathAttr : Bool

/-- One step of `ModuleDocumenter._populate`'s loop body for a single `dir()`
name: skip names starting with an underscore unless private members are
documented, then try the documenter classes in order and let the first whose
`validate_client` accepts construct the leaf from
`'{}.{}'.format(client.__module__, client.__name__)`. -/
def populateStep (package_path : Str) (document_private_members : Bool)
    (classes : List MemberDocumenterClass) (attr : Str × MemberValue) :
    Option MemberDocumenter :=
  if attr.1.head? = some '_' ∧ document_private_members = false then none
  else
    match classes.find? (fun c => c.validate_client attr.2 package_path) with
    | none => none
    | some c =>
      some ⟨attr.2.module ++ '.' :: attr.2.objName, c.documentation_section⟩

/-- Ordering of `dir()` entries used by `sorted(dir(self.client))`: Python
string `<=` on the attribute names. -/
def attrLe (a b : Str × MemberValue) : Prop :=
  strLeb a.1 b.1 = true

instance : DecidableRel attrLe :=
  fun _ _ => inferInstanceAs (Decidable (_ = true))

/-- `ModuleDocumenter._populate`: iterate the module's attributes in sorted
name order and collect the leaf documenter (if any) for each.  `sorted` is a
stable sort; `List.insertionSort` is the same stable sort. -/
def populate (package_path : Str) (document_private_members : Bool)
    (classes : List MemberDocumenterClass) (attrs : List (Str × MemberValue)) :
    List MemberDocumenter :=
  (List.insertionSort attrLe attrs).filterMap
    (populateStep package_path document_private_members classes)

/-- A documenter node (`ModuleDocumenter`): one per module or package.  The
`member_documenters` field stores the tuple `_populate` computed at
construction time; `module_documenters` stores the externally supplied child
documenters. -/
inductive ModuleDocumenter : Type where
  | mk
      (package_path : Str)
      (client : Client)
      (document_private_members : Bool)
      (member_documenter_classes : List MemberDocumenterClass)
      (module_documenters : List ModuleDocumenter)
      (member_documenters : List MemberDocumenter) : ModuleDocumenter

/-- `ModuleDocumenter.package_path`. -/
def ModuleDocumenter.package_path : ModuleDocumenter → Str
  | .mk p _ _ _ _ _ => p

/-- `ModuleDocumenter.client`. -/
def ModuleDocumenter.client : ModuleDocumenter → Client
  | .mk _ c _ _ _ _ => c

/-- `ModuleDocumenter.document_private_members`. -/
def ModuleDocumenter.document_private_members : ModuleDocumenter → Bool
  | .mk _ _ b _ _ _ => b

/-- `ModuleDocumenter.member_documenter_classes`. -/
def ModuleDocumenter.member_documenter_classes :
    ModuleDocumenter → List MemberDocumenterClass
  | .mk _ _ _ cs _ _ => cs

/-- `ModuleDocumenter.module_documenters`: the child documenters. -/
def ModuleDocumenter.module_documenters : ModuleDocumenter → List ModuleDocumenter
  | .mk _ _ _ _ ds _ => ds

/-- `ModuleDocumenter.member_documenters`: the stored leaf documenters. -/
def ModuleDocumenter.member_documenters : ModuleDocumenter → List MemberDocumenter
  | .mk _ _ _ _ _ ms => ms

/-- `ModuleDocumenter.is_package`: `hasattr(self.client, '__path__')`. -/
def ModuleDocumenter.is_package (d : ModuleDocumenter) : Bool :=
  d.client.hasPathAttr

/-- `ModuleDocumenter.reference_name` applied to a raw path:
`package_path.replace('_', '-').replace('.', '--')`. -/
def referenceNameOf (p : Str) : Str :=
  replaceChar (replaceChar p '_' ['-']) '.' ['-', '-']

/-- `ModuleDocumenter.reference_name`. -/
def ModuleDocumenter.reference_name (d : ModuleDocumenter) : Str :=
  referenceNameOf d.package_path

/-- `ModuleDocumenter.package_name`: `package_path.rpartition('.')[-1]` when
the path contains a dot, else the path itself.  Either way this is the final
dot-separated segment. -/
def ModuleDocumenter.package_name (d : ModuleDocumenter) : Str :=
  if '.' ∈ d.package_path then finalSegment d.package_path else d.package_path

/-- `ModuleDocumenter.is_nominative`: false for packages and for nodes whose
leaf tuple does not have exactly one entry; otherwise compare the sole leaf
path's last segment with its second-to-last segment
(`parts[-1] == parts[-2]`).  Leaf paths produced by `_populate` always
contain a dot, so the split has at least two parts; on a one-part path the
Python code would raise `IndexError`, modelled here as `false`
(unreachable for populated nodes). -/
def ModuleDocumenter.is_nominative (d : ModuleDocumenter) : Bool :=
  if d.is_package || d.member_documenters.length != 1 then false
  else
    match d.member_documenters with
    | [leaf] =>
      match (splitOnChar '.' leaf.package_path).reverse with
      | last :: prev :: _ => decide (last = prev)
      | _ => false
    | _ => false

/-- The error raised when `importlib.import_module(package_path)` cannot
resolve the path (the spec's `ResolutionError`). -/
structure ResolutionError where
  message : Str
deriving DecidableEq

/-- `ModuleDocumenter.__init__`: resolve the client for the path (the
resolver models `importlib.import_module`; per spec §6 it returns a client
or a resolution error).  A resolution failure propagates and no node is
produced; otherwise the node stores its inputs and the `_populate` result. -/
def makeModuleDocumenter (resolve : Str → Except ResolutionError Client)
    (package_path : Str) (document_private_members : Bool)
    (classes : List MemberDocumenterClass)
    (module_documenters : List ModuleDocumenter) :
    Except ResolutionError ModuleDocumenter :=
  match resolve package_path with
  | .error e => .error e
  | .ok client =>
    .ok (.mk package_path client document_private_members classes
      module_documenters
      (populate package_path document_private_members classes client.attrs))

/-- `ModuleDocumenter._build_toc(documenters)`: empty when no documenters are
given; otherwise a `.. toctree::` block with one entry per documenter, the
entry being the documenter's path with the parent path prefix (and the dot)
sliced off (`path[len(self.package_path) + 1:]`), `/index`-suffixed for
packages.  The source also filters the list with `isinstance(_, type(self))`;
in this model every supplied documenter is a `ModuleDocumenter` (the
constructor asserts as much), so the filter keeps everything. -/
def build_toc (d : ModuleDocumenter) (documenters : List ModuleDocumenter) :
    List Str :=
  match documenters with
  | [] => []
  | _ :: _ =>
    [[], chars (r".. toctree::"), []] ++
      documenters.map (fun md =>
        let path := md.package_path.drop (d.package_path.length + 1)
        let path := if md.is_package then path ++ chars (r"/index") else path
        chars (r"   ") ++ path)

/-- `result.setdefault(key, []).append(value)` on a Python dict modelled as
an insertion-ordered association list: append to the entry of `key` if one
exists, otherwise add a new `(key, [value])` entry at the end. -/
def setdefaultAppend :
    List (Str × List MemberDocumenter) → Str → MemberDocumenter →
      List (Str × List MemberDocumenter)
  | [], k, v => [(k, [v])]
  | (k', vs) :: rest, k, v =>
    if k' = k then (k', vs ++ [v]) :: rest
    else (k', vs) :: setdefaultAppend rest k v

/-- The dict-building loop of `ModuleDocumenter.member_documenters_by_section`:
fold every leaf into the insertion-ordered dict keyed by
`documentation_section`. -/
def groupBySection (leaves : List MemberDocumenter) :
    List (Str × List MemberDocumenter) :=
  leaves.foldl (fun acc m => setdefaultAppend acc m.documentation_section m) []

/-- Lookup in the association-list dict model: the value stored under a key
(first matching entry), `[]` when absent. -/
def lookupD (assoc : List (Str × List MemberDocumenter)) (key : Str) :
    List MemberDocumenter :=
  match assoc with
  | [] => []
  | (k, vs) :: rest => if k = key then vs else lookupD rest key

/-- Ordering used by `sorted(result.items())`: Python compares the pairs,
which starts with the section-name strings; the dict's keys are distinct so
the comparison never reaches the second components. -/
def pairLe (a b : Str × List MemberDocumenter) : Prop :=
  strLeb a.1 b.1 = true

instance : DecidableRel pairLe :=
  fun _ _ => inferInstanceAs (Decidable (_ = true))

/-- `ModuleDocumenter.member_documenters_by_section`:
`sorted(dict-grouped-items)`. -/
def ModuleDocumenter.member_documenters_by_section (d : ModuleDocumenter) :
    List (Str × List MemberDocumenter) :=
  List.insertionSort pairLe (groupBySection d.member_documenters)

/-- `pathlib` name stem: everything before the last dot of a component,
except that a dot in leading position does not start a suffix and a dotless
name is its own stem. -/
def stemOf (name : Str) : Str :=
  match name with
  | [] => []
  | a :: rest =>
    if '.' ∈ rest then a :: ((rest.reverse.dropWhile (fun c => c ≠ '.')).tail).reverse
    else a :: rest

/-- `pathlib.Path.with_suffix` on a single path component: drop the existing
suffix (if any) and append the new one.  (`pathlib` raises on an empty name;
that case is unreachable under the theorems' hypotheses.) -/
def withSuffixName (name suffix : Str) : Str :=
  stemOf name ++ suffix

/-- `ModuleDocumenter.documentation_path`, as the list of path components of
the returned `pathlib.Path`: `Path('.').joinpath(*package_path.split('.'))`
(joinpath ignores empty components, and the leading `'.'` contributes none),
then `/index` for packages, then `.with_suffix('.rst')` on the last
component. -/
def ModuleDocumenter.documentation_path (d : ModuleDocumenter) : List Str :=
  let parts := (splitOnChar '.' d.package_path).filter (fun s => s ≠ [])
  let parts := if d.is_package then parts ++ [chars (r"index")] else parts
  match parts.reverse with
  | [] => []
  | last :: front => front.reverse ++ [withSuffixName last (chars (r".rst"))]

/-- A root documenter (`RootDocumenter` / `SummarizingRootDocumenter`): holds
the externally supplied top-level module documenters.  It is not itself a
`ModuleDocumenter`. -/
structure RootDocumenter where
  module_documenters : List ModuleDocumenter

mutual

/-- `SummarizingRootDocumenter._recurse` restricted to a `ModuleDocumenter`
argument: yield `(node, node.member_documenters_by_section)` unless the node
is nominative, then recurse into the children in order. -/
def recurseModule (d : ModuleDocumenter) :
    List (ModuleDocumenter × List (Str × List MemberDocumenter)) :=
  match d with
  | .mk p c priv cls children ms =>
    (if (ModuleDocumenter.mk p c priv cls children ms).is_nominative then []
     else [(ModuleDocumenter.mk p c priv cls children ms,
            (ModuleDocumenter.mk p c priv cls children ms).member_documenters_by_section)]) ++
      recurseModuleList children

/-- The `for module_documenter in documenter.module_documenters` loop of
`_recurse`, concatenating the recursive results in order. -/
def recurseModuleList (ds : List ModuleDocumenter) :
    List (ModuleDocumenter × List (Str × List MemberDocumenter)) :=
  match ds with
  | [] => []
  | d :: rest => recurseModule d ++ recurseModuleList rest

end

/-- `SummarizingRootDocumenter._recurse(self)` as called from `__str__`: the
root itself fails the `isinstance(documenter, ModuleDocumenter)` test, so it
contributes no pair and only its children are recursed into. -/
def recurseRoot (root : RootDocumenter) :
    List (ModuleDocumenter × List (Str × List MemberDocumenter)) :=
  recurseModuleList root.module_documenters

mutual

/-- Depth-first pre-order listing of a documenter tree: the node first, then
the pre-order listings of its children, in order. -/
def preorderModule (d : ModuleDocumenter) : List ModuleDocumenter :=
  match d with
  | .mk p c priv cls children ms =>
    ModuleDocumenter.mk p c priv cls children ms :: preorderModuleList children

/-- Depth-first pre-order listing of a forest of documenter trees. -/
def preorderModuleList (ds : List ModuleDocumenter) : List ModuleDocumenter :=
  match ds with
  | [] => []
  | d :: rest => preorderModule d ++ preorderModuleList rest

end

/-- Concrete classifier that recognizes every member (a stand-in for a
`MemberDocumenter` subclass whose `validate_client` always accepts). -/
def acceptAllClasses : MemberDocumenterClass :=
  ⟨fun _ _ => true, chars (r"Classes")⟩

/-- Concrete classifier that recognizes nothing. -/
def rejectAll : MemberDocumenterClass :=
  ⟨fun _ _ => false, chars (r"Rejected")⟩

/-- Concrete classifier that recognizes every member into another section. -/
def acceptAllOther : MemberDocumenterClass :=
  ⟨fun _ _ => true, chars (r"Other")⟩

/-- A module attribute list holding one re-exported member: the attribute
`x` of module `a.b` is declared in module `c.x` with `__name__` `x`. -/
def reexportAttrs : List (Str × MemberValue) :=
  [(chars (r"x"), ⟨chars (r"c.x"), chars (r"x")⟩)]

/-- The documenter node built for module `a.b` whose only member is the
re-exported `c.x.x`; equals
`makeModuleDocumenter` of a resolver returning that module. -/
def reexportNode : ModuleDocumenter :=
  .mk (chars (r"a.b")) ⟨reexportAttrs, false⟩ false [acceptAllClasses] []
    [⟨chars (r"c.x.x"), chars (r"Classes")⟩]

/-- A module attribute list with aliased re-exports: attribute `a` holds an
object declared as `m.z`, attribute `b` holds an object declared as `m.c`. -/
def aliasAttrs : List (Str × MemberValue) :=
  [(chars (r"a"), ⟨chars (r"m"), chars (r"z")⟩),
   (chars (r"b"), ⟨chars (r"m"), chars (r"c")⟩)]

/-- The documenter node for module `m` with the aliased attributes above;
equals `makeModuleDocumenter` of a resolver returning that module. -/
def aliasNode : ModuleDocumenter :=
  .mk (chars (r"m")) ⟨aliasAttrs, false⟩ false [acceptAllClasses] []
    [⟨chars (r"m.z"), chars (r"Classes")⟩, ⟨chars (r"m.c"), chars (r"Classes")⟩]

/-- A package node for `uqbar.io` (no members, no children needed). -/
def ioNode : ModuleDocumenter :=
  .mk (chars (r"uqbar.io")) ⟨[], true⟩ false [] [] []

/-- A plain module node for `uqbar.strings`. -/
def nodeStrings : ModuleDocumenter :=
  .mk (chars (r"uqbar.strings")) ⟨[], false⟩ false [] [] []

/-- A parent package node for `uqbar`. -/
def parentUqbar : ModuleDocumenter :=
  .mk (chars (r"uqbar")) ⟨[], true⟩ false [] [ioNode, nodeStrings] []

/-- A resolver on which every path fails to resolve. -/
def failingResolve : Str → Except ResolutionError Client :=
  fun _ => .error ⟨chars (r"No module named missing")⟩

/-- The claim's reading of nominativity: not a package, exactly one leaf,
and the leaf's final path segment equals the node's own final path
segment. -/
def nominativeSpecClaim (d : ModuleDocumenter) : Prop :=
  d.is_package = false ∧ d.member_documenters.length = 1 ∧
    ∀ m ∈ d.member_documenters,
      finalSegment m.package_path = finalSegment d.package_path

instance (d : ModuleDocumenter) : Decidable (nominativeSpecClaim d) := by
  unfold nominativeSpecClaim
  infer_instance

theorem strLeb_total : ∀ x y : Str, strLeb x y = true ∨ strLeb y x = true := by
  intro x
  induction x with
  | nil => intro y; cases y <;> simp [strLeb]
  | cons a xs ih =>
    intro y
    cases y with
    | nil => simp [strLeb]
    | cons b ys =>
      simp only [strLeb]
      rcases lt_trichotomy a b with h | h | h
      · left; simp [h]
      · subst h; simpa [lt_irrefl] using ih ys
      · right; simp [h]

theorem strLeb_trans :
    ∀ x y z : Str, strLeb x y = true → strLeb y z = true → strLeb x z = true := by
  intro x
  induction x with
  | nil => intro y z _ _; cases z <;> simp [strLeb]
  | cons a xs ih =>
    intro y z hxy hyz
    cases y with
    | nil => simp [strLeb] at hxy
    | cons b ys =>
      cases z with
      | nil => simp [strLeb] at hyz
      | cons c zs =>
        simp only [strLeb] at hxy hyz ⊢
        rcases lt_trichotomy a b with hab | hab | hab
        · rcases lt_trichotomy b c with hbc | hbc | hbc
          · simp [lt_trans hab hbc]
          · subst hbc; simp [hab]
          · simp [hbc, not_lt_of_lt hbc] at hyz
        · subst hab
          rcases lt_trichotomy a c with hac | hac | hac
          · simp [hac]
          · subst hac
            simp only [lt_irrefl, if_false] at hxy hyz ⊢
            exact ih _ _ hxy hyz
          · simp [hac, not_lt_of_lt hac] at hyz
        · simp [hab, not_lt_of_lt hab] at hxy

instance : IsTotal (Str × MemberValue) attrLe :=
  ⟨fun a b => strLeb_total a.1 b.1⟩

instance : IsTrans (Str × MemberValue) attrLe :=
  ⟨fun a b c hab hbc => strLeb_trans a.1 b.1 c.1 hab hbc⟩

instance : IsTotal (Str × List MemberDocumenter) pairLe :=
  ⟨fun a b => strLeb_total a.1 b.1⟩

instance : IsTrans (Str × List MemberDocumenter) pairLe :=
  ⟨fun a b c hab hbc => strLeb_trans a.1 b.1 c.1 hab hbc⟩

theorem splitOnChar_ne_nil (c : Char) (p : Str) : splitOnChar c p ≠ [] := by
  cases p with
  | nil => simp [splitOnChar]
  | cons a rest =>
    simp only [splitOnChar]
    by_cases h : a = c
    · simp [h]
    · simp only [h, if_false]
      cases splitOnChar c rest <;> simp

theorem splitOnChar_append_sep (c : Char) (xs ys : Str) :
    splitOnChar c (xs ++ c :: ys) = splitOnChar c xs ++ splitOnChar c ys := by
  induction xs with
  | nil => simp [splitOnChar]
  | cons a xs ih =>
    by_cases h : a = c
    · simp [splitOnChar, h, ih]
    · simp only [List.cons_append, splitOnChar, h, if_false, List.append_eq]
      rw [ih]
      cases hx : splitOnChar c xs with
      | nil => exact absurd hx (splitOnChar_ne_nil c xs)
      | cons g gs => simp

theorem splitOnChar_of_not_mem (c : Char) (p : Str) (h : c ∉ p) :
    splitOnChar c p = [p] := by
  induction p with
  | nil => simp [splitOnChar]
  | cons a rest ih =>
    simp only [List.mem_cons, not_or] at h
    have ha : a ≠ c := fun hh => h.1 hh.symm
    simp [splitOnChar, ha, ih h.2]

theorem finalSegment_append_sep (xs ys : Str) :
    finalSegment (xs ++ '.' :: ys) = finalSegment ys := by
  unfold finalSegment
  rw [splitOnChar_append_sep]
  rw [List.reverse_append]
  cases hy : (splitOnChar '.' ys).reverse with
  | nil =>
    exact absurd (by simpa using congrArg List.reverse hy) (splitOnChar_ne_nil '.' ys)
  | cons g gs => simp

theorem finalSegment_of_not_mem (p : Str) (h : '.' ∉ p) : finalSegment p = p := by
  unfold finalSegment
  rw [splitOnChar_of_not_mem '.' p h]
  rfl

/-- C7: for every dotted package path, `reference_name` replaces each
underscore with a hyphen and each dot with a double hyphen (stated as the
simultaneous character-wise expansion of the path), and in particular maps
`pkg.sub_mod` to `pkg--sub-mod`; the derivation is a function of the path,
hence deterministic. -/
theorem reference_name_spec :
    (∀ p : Str, referenceNameOf p =
      p.flatMap (fun c => if c = '_' then ['-']
        else if c = '.' then ['-', '-'] else [c])) ∧
    referenceNameOf (chars (r"pkg.sub_mod")) = chars (r"pkg--sub-mod") := by
  constructor
  · intro p
    induction p with
    | nil => rfl
    | cons a p ih =>
      simp only [referenceNameOf, replaceChar, List.flatMap_cons,
        List.flatMap_append] at *
      by_cases h1 : a = '_'
      · subst h1; simpa using ih
      · by_cases h2 : a = '.'
        · subst h2; simpa [h1] using ih
        · simpa [h1, h2] using ih
  · decide

/-- C8: when the resolver cannot resolve the package path, node construction
returns exactly the resolver's error — propagated unmodified — and no
documenter node (hence no partial document) is produced. -/
theorem resolution_error_propagates (resolve : Str → Except ResolutionError Client)
    (package_path : Str) (priv : Bool) (classes : List MemberDocumenterClass)
    (children : List ModuleDocumenter) (e : ResolutionError)
    (h : resolve package_path = .error e) :
    makeModuleDocumenter resolve package_path priv classes children = .error e := by
  unfold makeModuleDocumenter
  rw [h]

/-- Witness for C8 at a concrete failing resolver. -/
theorem resolution_error_propagates_witness :
    failingResolve (chars (r"missing")) =
      .error ⟨chars (r"No module named missing")⟩ ∧
    makeModuleDocumenter failingResolve (chars (r"missing")) false [] [] =
      .error ⟨chars (r"No module named missing")⟩ :=
  ⟨rfl,
    resolution_error_propagates failingResolve (chars (r"missing")) false [] []
      ⟨chars (r"No module named missing")⟩ rfl⟩

/-- C4: for a member that is not skipped by the private-name filter, with
classifiers `pre ++ c :: post` where nothing in `pre` recognizes the member
and `c` does, the produced leaf documenter is constructed by `c` (it carries
`c`'s documentation section and the member's fully-qualified path), whatever
the later classifiers `post` are — so no later classifier's constructor is
ever invoked. -/
theorem first_classifier_wins (package_path : Str) (priv : Bool)
    (pre post : List MemberDocumenterClass) (c : MemberDocumenterClass)
    (attr : Str × MemberValue)
    (hpriv : ¬(attr.1.head? = some '_' ∧ priv = false))
    (hpre : ∀ cl ∈ pre, cl.validate_client attr.2 package_path = false)
    (hc : c.validate_client attr.2 package_path = true) :
    populateStep package_path priv (pre ++ c :: post) attr =
      some ⟨attr.2.module ++ '.' :: attr.2.objName, c.documentation_section⟩ := by
  unfold populateStep
  rw [if_neg hpriv]
  rw [List.find?_append]
  have h1 : List.find? (fun cl => cl.validate_client attr.2 package_path) pre
      = none := by
    rw [List.find?_eq_none]
    intro x hx
    simp [hpre x hx]
  have h2 : List.find? (fun cl => cl.validate_client attr.2 package_path)
      (c :: post) = some c :=
    List.find?_cons_of_pos _ (by simpa using hc)
  rw [h1, h2]
  rfl

/-- Witness for C4: a rejecting classifier, then an accepting one, then a
later accepting one; the leaf comes from the middle classifier. -/
theorem first_classifier_wins_witness :
    ¬((chars (r"f")).head? = some '_' ∧ false = false) ∧
    (∀ cl ∈ [rejectAll],
      cl.validate_client ⟨chars (r"m"), chars (r"f")⟩ (chars (r"m")) = false) ∧
    acceptAllClasses.validate_client ⟨chars (r"m"), chars (r"f")⟩
      (chars (r"m")) = true ∧
    populateStep (chars (r"m")) false
        ([rejectAll] ++ acceptAllClasses :: [acceptAllOther])
        (chars (r"f"), ⟨chars (r"m"), chars (r"f")⟩) =
      some ⟨chars (r"m.f"), chars (r"Classes")⟩ :=
  ⟨by decide, by decide, by decide,
    first_classifier_wins (chars (r"m")) false [rejectAll] [acceptAllOther]
      acceptAllClasses (chars (r"f"), ⟨chars (r"m"), chars (r"f")⟩)
      (by decide) (by decide) (by decide)⟩

theorem filterMap_orderedInsert_none
    {f : (Str × MemberValue) → Option MemberDocumenter}
    (a : Str × MemberValue) (hf : f a = none) :
    ∀ l : List (Str × MemberValue),
      (List.orderedInsert attrLe a l).filterMap f = l.filterMap f := by
  intro l
  induction l with
  | nil => simp [List.orderedInsert, List.filterMap_cons, hf]
  | cons b l ih =>
    by_cases h : attrLe a b
    · simp [List.orderedInsert, h, List.filterMap_cons, hf]
    · simp only [List.orderedInsert, h, if_false, List.filterMap_cons, ih]

/-- C9: a member whose name starts with an underscore while private members
are not documented, or that no classifier recognizes, yields no leaf
documenter, and dropping it from the module's attributes leaves the
populated leaf tuple unchanged (it is absent from all output derived from
that tuple); `_populate` is a total function, so no error is raised. -/
theorem unclassified_member_excluded (package_path : Str) (priv : Bool)
    (classes : List MemberDocumenterClass) (attrs : List (Str × MemberValue))
    (attr : Str × MemberValue)
    (h : (attr.1.head? = some '_' ∧ priv = false) ∨
      ∀ c ∈ classes, c.validate_client attr.2 package_path = false) :
    populateStep package_path priv classes attr = none ∧
    populate package_path priv classes (attr :: attrs) =
      populate package_path priv classes attrs := by
  have hstep : populateStep package_path priv classes attr = none := by
    unfold populateStep
    rcases h with h | h
    · rw [if_pos h]
    · by_cases hp : attr.1.head? = some '_' ∧ priv = false
      · rw [if_pos hp]
      · rw [if_neg hp]
        have hn : List.find?
            (fun c => c.validate_client attr.2 package_path) classes = none := by
          rw [List.find?_eq_none]
          intro x hx
          simp [h x hx]
        rw [hn]
  refine ⟨hstep, ?_⟩
  show (List.orderedInsert attrLe attr
      (List.insertionSort attrLe attrs)).filterMap _ = _
  exact filterMap_orderedInsert_none attr hstep _

/-- Witness for C9 at a concrete private-named member. -/
theorem unclassified_member_excluded_witness :
    ((chars (r"_private")).head? = some '_' ∧ false = false) ∧
    (populateStep (chars (r"m")) false [acceptAllClasses]
        (chars (r"_private"), ⟨chars (r"m"), chars (r"_private")⟩) = none ∧
      populate (chars (r"m")) false [acceptAllClasses]
          [(chars (r"_private"), ⟨chars (r"m"), chars (r"_private")⟩)] =
        populate (chars (r"m")) false [acceptAllClasses] []) :=
  ⟨by decide,
    unclassified_member_excluded (chars (r"m")) false [acceptAllClasses] []
      (chars (r"_private"), ⟨chars (r"m"), chars (r"_private")⟩)
      (Or.inl (by decide))⟩

/-- C6: for a node with a non-empty child list whose children's paths extend
the parent's path by a dot (the tree invariant), the rendered toctree block
has exactly one entry per child, in the supplied order; each entry is the
child's path with the parent prefix and the dot stripped, `/index`-suffixed
exactly when the child is a package; and the stripped entry really is the
child's path minus the parent prefix. -/
theorem build_toc_spec (d : ModuleDocumenter) (children : List ModuleDocumenter)
    (hne : children ≠ [])
    (hpref : ∀ c ∈ children, ∃ rest : Str,
      c.package_path = d.package_path ++ '.' :: rest) :
    build_toc d children =
      [[], chars (r".. toctree::"), []] ++
        children.map (fun c =>
          chars (r"   ") ++
            (c.package_path.drop (d.package_path.length + 1) ++
              (if c.is_package then chars (r"/index") else []))) ∧
    ∀ c ∈ children,
      d.package_path ++ '.' ::
          c.package_path.drop (d.package_path.length + 1) = c.package_path := by
  constructor
  · cases children with
    | nil => exact absurd rfl hne
    | cons c0 rest =>
      simp only [build_toc]
      congr 1
      apply List.map_congr_left
      intro md _
      cases hmd : md.is_package <;> simp
  · intro c hc
    obtain ⟨rest, hr⟩ := hpref c hc
    rw [hr]
    rw [show d.package_path ++ '.' :: rest = (d.package_path ++ ['.']) ++ rest
      by simp]
    rw [show d.package_path.length + 1 = (d.package_path ++ ['.']).length
      by simp]
    rw [List.drop_left]
    simp

/-- Witness for C6: `uqbar` with children `uqbar.io` (a package) and
`uqbar.strings` (a plain module). -/
theorem build_toc_spec_witness :
    build_toc parentUqbar [ioNode, nodeStrings] =
      [[], chars (r".. toctree::"), [],
        chars (r"   io/index"), chars (r"   strings")] ∧
    ∀ c ∈ [ioNode, nodeStrings],
      parentUqbar.package_path ++ '.' ::
          c.package_path.drop (parentUqbar.package_path.length + 1) =
        c.package_path := by
  have h := build_toc_spec parentUqbar [ioNode, nodeStrings]
    (by simp)
    (by
      intro c hc
      simp only [List.mem_cons, List.not_mem_nil, or_false] at hc
      rcases hc with hc | hc
      · subst hc; exact ⟨chars (r"io"), by decide⟩
      · subst hc; exact ⟨chars (r"strings"), by decide⟩)
  exact ⟨h.1.trans (by decide), h.2⟩

theorem not_mem_of_mem_splitOnChar (c : Char) (p : Str) :
    ∀ s ∈ splitOnChar c p, c ∉ s := by
  induction p with
  | nil =>
    intro s hs
    simp [splitOnChar] at hs
    subst hs
    simp
  | cons a rest ih =>
    intro s hs
    by_cases hac : a = c
    · subst hac
      simp [splitOnChar] at hs
      rcases hs with h | h
      · subst h; simp
      · exact ih s h
    · simp only [splitOnChar, hac, if_false] at hs
      cases hx : splitOnChar c rest with
      | nil => exact absurd hx (splitOnChar_ne_nil c rest)
      | cons g gs =>
        rw [hx] at hs
        simp only [List.mem_cons] at hs
        rcases hs with h | h
        · subst h
          intro hmem
          rcases List.mem_cons.mp hmem with h' | h'
          · exact hac h'.symm
          · exact ih g (by rw [hx]; exact List.mem_cons_self g gs) h'
        · exact ih s (by rw [hx]; exact List.mem_cons_of_mem g h)

theorem stemOf_of_not_mem (s : Str) (hne : s ≠ []) (h : '.' ∉ s) :
    stemOf s = s := by
  cases s with
  | nil => exact absurd rfl hne
  | cons a rest =>
    simp only [List.mem_cons, not_or] at h
    simp [stemOf, h.2]

/-- C10: under the tree's path validity (no empty dot-separated segment),
`documentation_path`'s components are exactly the dot-separated segments of
`package_path`, with a final `index` component exactly when the node is a
package, and with `.rst` appended to the last component. -/
theorem documentation_path_spec (d : ModuleDocumenter)
    (h : ∀ s ∈ splitOnChar '.' d.package_path, s ≠ []) :
    d.documentation_path =
      (splitOnChar '.' d.package_path ++
          (if d.is_package then [chars (r"index")] else [])).dropLast ++
        [(splitOnChar '.' d.package_path ++
            (if d.is_package then [chars (r"index")] else [])).getLastD [] ++
          chars (r".rst")] := by
  unfold ModuleDocumenter.documentation_path
  have hfil : (splitOnChar '.' d.package_path).filter (fun s => s ≠ []) =
      splitOnChar '.' d.package_path := by
    rw [List.filter_eq_self]
    intro a ha
    simpa using h a ha
  rw [hfil]
  cases hp : d.is_package with
  | true =>
    simp only [if_true]
    rw [List.reverse_concat]
    simp only [List.reverse_reverse, List.dropLast_concat, List.getLastD_concat]
    rw [withSuffixName, stemOf_of_not_mem (chars (r"index")) (by decide) (by decide)]
  | false =>
    simp only [Bool.false_eq_true, if_false, List.append_nil]
    cases hrev : (splitOnChar '.' d.package_path).reverse with
    | nil =>
      exact absurd (by simpa using congrArg List.reverse hrev)
        (splitOnChar_ne_nil '.' d.package_path)
    | cons last front =>
      have hsplit : splitOnChar '.' d.package_path = front.reverse ++ [last] := by
        rw [List.reverse_eq_iff] at hrev
        rw [hrev]
        simp
      have hlast : last ∈ splitOnChar '.' d.package_path := by
        rw [hsplit]
        simp
      rw [hsplit]
      simp only [List.dropLast_concat, List.getLastD_concat]
      rw [withSuffixName,
        stemOf_of_not_mem last (h last hlast)
          (not_mem_of_mem_splitOnChar '.' d.package_path last hlast)]

/-- Witness for C10: the package `uqbar.io` maps to `uqbar/io/index.rst` and
the plain module `uqbar.strings` maps to `uqbar/strings.rst`. -/
theorem documentation_path_spec_witness :
    (∀ s ∈ splitOnChar '.' ioNode.package_path, s ≠ []) ∧
    ioNode.documentation_path =
      [chars (r"uqbar"), chars (r"io"), chars (r"index.rst")] ∧
    nodeStrings.documentation_path =
      [chars (r"uqbar"), chars (r"strings.rst")] :=
  ⟨by decide,
    (documentation_path_spec ioNode (by decide)).trans (by decide),
    (documentation_path_spec nodeStrings (by decide)).trans (by decide)⟩

/-- C1 counterexample: the node for module `a.b` whose single member is the
re-exported symbol `c.x.x` is reachable by construction, and on it the code's
`is_nominative` is true although the leaf's final path segment `x` differs
from the node's final path segment `b` — refuting the claimed
characterisation. -/
theorem is_nominative_claim_counterexample :
    makeModuleDocumenter (fun _ => .ok ⟨reexportAttrs, false⟩) (chars (r"a.b"))
        false [acceptAllClasses] [] = .ok reexportNode ∧
    ¬(reexportNode.is_nominative = true ↔ nominativeSpecClaim reexportNode) :=
  ⟨rfl, by decide⟩

/-- C1 amended: `is_nominative` is true iff the node is not a package, has
exactly one leaf documenter, and that leaf's final path segment equals the
segment immediately preceding it in the leaf's own path (the final segment
of the leaf's declaring module) — not necessarily the node's own final
segment. -/
theorem is_nominative_amended (d : ModuleDocumenter) :
    d.is_nominative = true ↔
      d.is_package = false ∧ d.member_documenters.length = 1 ∧
        ∀ m ∈ d.member_documenters,
          2 ≤ segmentCount m.package_path ∧
          finalSegment m.package_path = penultimateSegment m.package_path := by
  unfold ModuleDocumenter.is_nominative
  by_cases hpkg : d.is_package = true
  · simp [hpkg]
  · rw [Bool.not_eq_true] at hpkg
    cases hms : d.member_documenters with
    | nil => simp [hpkg, hms]
    | cons m rest =>
      cases rest with
      | cons m2 rest2 => simp [hpkg, hms]
      | nil =>
        simp only [hpkg, hms, Bool.false_or, List.length_cons, List.length_nil,
          List.mem_singleton, forall_eq]
        cases hrev : (splitOnChar '.' m.package_path).reverse with
        | nil =>
          exact absurd (by simpa using congrArg List.reverse hrev)
            (splitOnChar_ne_nil '.' m.package_path)
        | cons last front =>
          cases front with
          | nil =>
            have hlen : segmentCount m.package_path = 1 := by
              unfold segmentCount
              rw [← List.length_reverse, hrev]
              rfl
            simp [hrev, hlen]
          | cons prev front2 =>
            have hlen : 2 ≤ segmentCount m.package_path := by
              unfold segmentCount
              rw [← List.length_reverse, hrev]
              simp
            have hfin : finalSegment m.package_path = last := by
              unfold finalSegment
              rw [hrev]
              rfl
            have hpen : penultimateSegment m.package_path = prev := by
              unfold penultimateSegment
              rw [hrev]
              rfl
            simp [hrev, hlen, hfin, hpen]

/-- C3 counterexample: module `m` re-exports two members under aliased
attribute names — attribute `a` holds an object declared as `m.z`, attribute
`b` one declared as `m.c`.  The node is reachable by construction, and its
stored leaves' declaring names come out as `z, c`, which is not in
lexicographic order: `_populate` sorts by the discovered attribute name, not
the declaring name. -/
theorem member_order_claim_counterexample :
    makeModuleDocumenter (fun _ => .ok ⟨aliasAttrs, false⟩) (chars (r"m"))
        false [acceptAllClasses] [] = .ok aliasNode ∧
    (aliasNode.member_documenters.map (fun m => finalSegment m.package_path) =
      [chars (r"z"), chars (r"c")]) ∧
    ¬(aliasNode.member_documenters.map
        (fun m => finalSegment m.package_path)).Pairwise
      (fun x y => strLeb x y = true) :=
  ⟨rfl, by decide, by decide⟩

theorem populateStep_path (package_path : Str) (priv : Bool)
    (classes : List MemberDocumenterClass) (attr : Str × MemberValue)
    (m : MemberDocumenter)
    (hm : populateStep package_path priv classes attr = some m) :
    m.package_path = attr.2.module ++ '.' :: attr.2.objName := by
  unfold populateStep at hm
  by_cases hp : attr.1.head? = some '_' ∧ priv = false
  · rw [if_pos hp] at hm
    exact absurd hm (by simp)
  · rw [if_neg hp] at hm
    cases hfind : List.find?
        (fun c => c.validate_client attr.2 package_path) classes with
    | none => rw [hfind] at hm; exact absurd hm (by simp)
    | some c =>
      rw [hfind] at hm
      cases hm
      rfl

theorem pairwise_map_filterMap {α β γ : Type _} {R : α → α → Prop}
    {S : γ → γ → Prop} (g : β → γ) (f : α → Option β) (l : List α)
    (hl : l.Pairwise R)
    (hstep : ∀ a b x y, R a b → f a = some x → f b = some y → S (g x) (g y)) :
    ((l.filterMap f).map g).Pairwise S := by
  induction hl with
  | nil => simp
  | @cons a l' ha _ ih =>
    rw [List.filterMap_cons]
    cases hfa : f a with
    | none => exact ih
    | some x =>
      rw [List.map_cons]
      refine List.Pairwise.cons ?_ ih
      intro z hz
      rw [List.mem_map] at hz
      obtain ⟨y, hy, rfl⟩ := hz
      rw [List.mem_filterMap] at hy
      obtain ⟨b, hb, hfb⟩ := hy
      exact hstep a b x y (ha b hb) hfa hfb

/-- C3 amended: the stored leaf documenters are generated in lexicographic
order of the discovered attribute name; when no member is re-exported under
an alias (each attribute name equals its value's declaring `__name__`, and
declaring names contain no dot), the leaves' declaring names therefore do
appear in lexicographic order.  With aliased re-exports the order follows
the discovered names instead (see the counterexample). -/
theorem member_order_amended (package_path : Str) (priv : Bool)
    (classes : List MemberDocumenterClass) (attrs : List (Str × MemberValue))
    (h : ∀ a ∈ attrs, a.1 = a.2.objName ∧ '.' ∉ a.2.objName) :
    ((populate package_path priv classes attrs).map
        (fun m => finalSegment m.package_path)).Pairwise
      (fun x y => strLeb x y = true) := by
  unfold populate
  have hsorted : (List.insertionSort attrLe attrs).Pairwise
      (fun a b : Str × MemberValue =>
        attrLe a b ∧ (a.1 = a.2.objName ∧ '.' ∉ a.2.objName) ∧
          (b.1 = b.2.objName ∧ '.' ∉ b.2.objName)) := by
    refine (List.sorted_insertionSort attrLe attrs).imp_of_mem ?_
    intro a b ha hb hab
    exact ⟨hab,
      h a ((List.perm_insertionSort attrLe attrs).subset ha),
      h b ((List.perm_insertionSort attrLe attrs).subset hb)⟩
  refine pairwise_map_filterMap _ _ _ hsorted ?_
  intro a b x y hR hfa hfb
  have hx : finalSegment x.package_path = a.1 := by
    rw [populateStep_path package_path priv classes a x hfa,
      finalSegment_append_sep, finalSegment_of_not_mem _ hR.2.1.2, hR.2.1.1]
  have hy : finalSegment y.package_path = b.1 := by
    rw [populateStep_path package_path priv classes b y hfb,
      finalSegment_append_sep, finalSegment_of_not_mem _ hR.2.2.2, hR.2.2.1]
  show strLeb (finalSegment x.package_path) (finalSegment y.package_path) = true
  rw [hx, hy]
  exact hR.1

/-- Witness for C3's amended theorem: two unaliased members discovered as
`b` then `a` come out sorted. -/
theorem member_order_amended_witness :
    (∀ a ∈ [(chars (r"b"), (⟨chars (r"m"), chars (r"b")⟩ : MemberValue)),
        (chars (r"a"), ⟨chars (r"m"), chars (r"a")⟩)],
      a.1 = a.2.objName ∧ '.' ∉ a.2.objName) ∧
    ((populate (chars (r"m")) false [acceptAllClasses]
        [(chars (r"b"), ⟨chars (r"m"), chars (r"b")⟩),
         (chars (r"a"), ⟨chars (r"m"), chars (r"a")⟩)]).map
      (fun m => finalSegment m.package_path)).Pairwise
      (fun x y => strLeb x y = true) :=
  ⟨by decide,
    member_order_amended (chars (r"m")) false [acceptAllClasses]
      [(chars (r"b"), ⟨chars (r"m"), chars (r"b")⟩),
       (chars (r"a"), ⟨chars (r"m"), chars (r"a")⟩)]
      (by decide)⟩

theorem keys_setdefaultAppend (acc : List (Str × List MemberDocumenter))
    (k : Str) (v : MemberDocumenter) :
    (setdefaultAppend acc k v).map Prod.fst =
      if k ∈ acc.map Prod.fst then acc.map Prod.fst
      else acc.map Prod.fst ++ [k] := by
  induction acc with
  | nil => simp [setdefaultAppend]
  | cons p rest ih =>
    obtain ⟨k', vs⟩ := p
    by_cases hk : k' = k
    · subst hk
      simp [setdefaultAppend]
    · simp only [setdefaultAppend, hk, if_false, List.map_cons, ih]
      by_cases hmem : k ∈ rest.map Prod.fst
      · simp [hmem, Ne.symm hk]
      · simp [hmem, Ne.symm hk]

theorem mem_keys_setdefaultAppend (acc : List (Str × List MemberDocumenter))
    (k : Str) (v : MemberDocumenter) (s : Str) :
    s ∈ (setdefaultAppend acc k v).map Prod.fst ↔
      s ∈ acc.map Prod.fst ∨ s = k := by
  rw [keys_setdefaultAppend]
  by_cases hm : k ∈ acc.map Prod.fst
  · simp only [hm, if_true]
    constructor
    · exact Or.inl
    · rintro (h | rfl)
      · exact h
      · exact hm
  · simp [hm, List.mem_append]

theorem nodup_keys_setdefaultAppend (acc : List (Str × List MemberDocumenter))
    (k : Str) (v : MemberDocumenter) (h : (acc.map Prod.fst).Nodup) :
    ((setdefaultAppend acc k v).map Prod.fst).Nodup := by
  rw [keys_setdefaultAppend]
  by_cases hm : k ∈ acc.map Prod.fst
  · simpa [hm] using h
  · simp only [hm, if_false]
    rw [List.nodup_append]
    exact ⟨h, List.nodup_singleton k, by simpa using hm⟩

theorem lookupD_setdefaultAppend (acc : List (Str × List MemberDocumenter))
    (k key : Str) (v : MemberDocumenter) :
    lookupD (setdefaultAppend acc k v) key =
      if key = k then lookupD acc key ++ [v] else lookupD acc key := by
  induction acc with
  | nil =>
    simp only [setdefaultAppend, lookupD]
    by_cases h : key = k
    · simp [h]
    · simp [h, Ne.symm h]
  | cons p rest ih =>
    obtain ⟨k', vs⟩ := p
    by_cases hk : k' = k
    · subst hk
      simp only [setdefaultAppend, if_pos rfl, lookupD]
      by_cases hkey : k' = key
      · subst hkey
        simp
      · simp [hkey, Ne.symm hkey]
    · simp only [setdefaultAppend, hk, if_false, lookupD]
      by_cases hkey : k' = key
      · subst hkey
        simp [hk]
      · simp only [hkey, if_false, ih]

theorem lookupD_of_mem_nodup (assoc : List (Str × List MemberDocumenter))
    (p : Str × List MemberDocumenter)
    (hnd : (assoc.map Prod.fst).Nodup) (hp : p ∈ assoc) :
    lookupD assoc p.1 = p.2 := by
  induction assoc with
  | nil => simp at hp
  | cons q rest ih =>
    obtain ⟨k', vs⟩ := q
    simp only [List.map_cons, List.nodup_cons] at hnd
    rcases List.mem_cons.mp hp with h | h
    · subst h
      simp [lookupD]
    · have hne : k' ≠ p.1 := by
        intro hk
        exact hnd.1 (hk ▸ List.mem_map.mpr ⟨p, h, rfl⟩)
      simp only [lookupD, hne, if_false]
      exact ih hnd.2 h

theorem groupFold_keys_nodup (leaves : List MemberDocumenter) :
    ∀ acc : List (Str × List MemberDocumenter), (acc.map Prod.fst).Nodup →
      ((leaves.foldl
          (fun acc m => setdefaultAppend acc m.documentation_section m)
          acc).map Prod.fst).Nodup := by
  induction leaves with
  | nil => intro acc h; simpa using h
  | cons m rest ih =>
    intro acc h
    rw [List.foldl_cons]
    exact ih _ (nodup_keys_setdefaultAppend acc m.documentation_section m h)

theorem groupFold_keys_mem (leaves : List MemberDocumenter) :
    ∀ (acc : List (Str × List MemberDocumenter)) (s : Str),
      (s ∈ (leaves.foldl
          (fun acc m => setdefaultAppend acc m.documentation_section m)
          acc).map Prod.fst ↔
        s ∈ acc.map Prod.fst ∨
          s ∈ leaves.map MemberDocumenter.documentation_section) := by
  induction leaves with
  | nil => intro acc s; simp
  | cons m rest ih =>
    intro acc s
    rw [List.foldl_cons, ih, mem_keys_setdefaultAppend]
    simp only [List.map_cons, List.mem_cons]
    tauto

theorem groupFold_values (leaves : List MemberDocumenter) :
    ∀ acc : List (Str × List MemberDocumenter), (acc.map Prod.fst).Nodup →
      ∀ p ∈ leaves.foldl
          (fun acc m => setdefaultAppend acc m.documentation_section m) acc,
        p.2 = lookupD acc p.1 ++
          leaves.filter (fun m => m.documentation_section = p.1) := by
  induction leaves with
  | nil =>
    intro acc hnd p hp
    simp [lookupD_of_mem_nodup acc p hnd hp]
  | cons m rest ih =>
    intro acc hnd p hp
    rw [List.foldl_cons] at hp
    have hval := ih _
      (nodup_keys_setdefaultAppend acc m.documentation_section m hnd) p hp
    rw [lookupD_setdefaultAppend] at hval
    rw [List.filter_cons]
    by_cases hc : m.documentation_section = p.1
    · rw [if_pos (by simpa using hc)]
      rw [if_pos hc.symm] at hval
      simpa [List.append_assoc] using hval
    · rw [if_neg (by simpa using hc)]
      rw [if_neg (fun hh => hc hh.symm)] at hval
      exact hval

/-- C5: `member_documenters_by_section` is sorted lexicographically by
section name, has exactly one pair per distinct `documentation_section`
among the node's leaves (no duplicate keys, and a key appears iff some leaf
carries that section), and each pair's leaves are exactly the node's stored
leaves of that section, filtered in place — hence in the stored tuple's
relative order. -/
theorem member_documenters_by_section_spec (d : ModuleDocumenter) :
    List.Sorted pairLe d.member_documenters_by_section ∧
    (d.member_documenters_by_section.map Prod.fst).Nodup ∧
    (∀ s : Str, s ∈ d.member_documenters_by_section.map Prod.fst ↔
      s ∈ d.member_documenters.map MemberDocumenter.documentation_section) ∧
    ∀ p ∈ d.member_documenters_by_section,
      p.2 = d.member_documenters.filter
        (fun m => m.documentation_section = p.1) := by
  unfold ModuleDocumenter.member_documenters_by_section
  have hperm :=
    List.perm_insertionSort pairLe (groupBySection d.member_documenters)
  refine ⟨List.sorted_insertionSort pairLe _, ?_, ?_, ?_⟩
  · rw [(hperm.map Prod.fst).nodup_iff]
    exact groupFold_keys_nodup d.member_documenters [] (by simp)
  · intro s
    rw [(hperm.map Prod.fst).mem_iff]
    have := groupFold_keys_mem d.member_documenters [] s
    simpa [groupBySection] using this
  · intro p hp
    have hp' := hperm.mem_iff.mp hp
    have := groupFold_values d.member_documenters [] (by simp) p hp'
    simpa [groupBySection, lookupD] using this

mutual

theorem recurseModule_eq_preorder (d : ModuleDocumenter) :
    recurseModule d = (preorderModule d).filterMap
      (fun n => if n.is_nominative then none
        else some (n, n.member_documenters_by_section)) := by
  match d with
  | .mk p c priv cls children ms =>
    rw [recurseModule, preorderModule, List.filterMap_cons,
      recurseModuleList_eq_preorder children]
    by_cases h : (ModuleDocumenter.mk p c priv cls children ms).is_nominative
    · simp [h]
    · simp [h]

theorem recurseModuleList_eq_preorder (ds : List ModuleDocumenter) :
    recurseModuleList ds = (preorderModuleList ds).filterMap
      (fun n => if n.is_nominative then none
        else some (n, n.member_documenters_by_section)) := by
  match ds with
  | [] => rw [recurseModuleList, preorderModuleList]; rfl
  | d :: rest =>
    rw [recurseModuleList, preorderModuleList, List.filterMap_append,
      recurseModule_eq_preorder d, recurseModuleList_eq_preorder rest]

end

/-- C2: the summary renderer's recursion over the whole tree from the root
equals the depth-first pre-order listing of the tree, keeping — paired with
its members grouped by section — every visited node that is not nominative
and dropping every nominative node while still traversing its children (the
pre-order listing includes every descendant of nominative nodes). -/
theorem recursive_sections_spec (root : RootDocumenter) :
    recurseRoot root =
      (preorderModuleList root.module_documenters).filterMap
        (fun n => if n.is_nominative then none
          else some (n, n.member_documenters_by_section)) :=
  recurseModuleList_eq_preorder root.module_documenters

end Uqbar
